import Mathlib

/-
Shallow embedding of `src/elisa_matcher.py` and proofs about it.

Pure helper functions of the source are translated directly onto Lean
strings (lists of characters) and natural numbers.  The external
collaborators (the DuckDuckGo search backend, the HTTP transport and the
HTML-to-text extraction) are modelled as explicit inputs of the embedded
functions, Python dictionaries are modelled as insertion-ordered
association lists, and Python `KeyError` / exception propagation is
modelled with `Option` / `Except`.  SHA-1 is implemented bit-faithfully
on `Nat` with explicit reduction modulo 2^32.
-/

set_option maxRecDepth 10000

/-! ### Python string helpers -/

/-- Characters Python treats as whitespace in `str.strip` and in `\s` (ASCII range). -/
def isPySpace (c : Char) : Bool :=
  c == ' ' || c == '\t' || c == '\n' || c == '\r' || c == '\x0b' || c == '\x0c'

/-- Python `s.strip()` on a list of characters. -/
def pyStrip (l : List Char) : List Char :=
  ((l.dropWhile isPySpace).reverse.dropWhile isPySpace).reverse

/-- Python `re.sub(r"\s+", " ", s)`: collapse every whitespace run to one space. -/
def squeezeWS : List Char → List Char
  | [] => []
  | [c] => [if isPySpace c then ' ' else c]
  | c1 :: c2 :: rest =>
    if isPySpace c1 && isPySpace c2 then squeezeWS (c2 :: rest)
    else (if isPySpace c1 then ' ' else c1) :: squeezeWS (c2 :: rest)

/-- Source `norm`: collapse whitespace runs to single spaces and strip the ends. -/
def norm (s : String) : String := String.mk (pyStrip (squeezeWS s.data))

/-- Python substring test `pat in l`. -/
def containsSub (pat : List Char) : List Char → Bool
  | [] => pat.isEmpty
  | c :: rest => pat.isPrefixOf (c :: rest) || containsSub pat rest

/-- Characters that terminate the network-location part of an http(s) URL. -/
def stopChar (c : Char) : Bool := c == '/' || c == '?' || c == '#'

/-- Network location (host part) of an http/https URL, as
`urllib.parse.urlparse(url).netloc` computes it for URLs of those two schemes.
Other strings, which the pipeline never feeds to `vendor` (the scheme filter in
`to_urls` runs first), are mapped to an empty netloc. -/
def netlocOf (url : String) : String :=
  if "https://".data.isPrefixOf url.data then
    String.mk ((url.data.drop 8).takeWhile (fun c => !stopChar c))
  else if "http://".data.isPrefixOf url.data then
    String.mk ((url.data.drop 7).takeWhile (fun c => !stopChar c))
  else ""

/-- Python `s.replace(pat, "")`, fuelled for structural recursion: scan left to
right and drop every non-overlapping occurrence of `pat`. -/
def removeOccGo (pat : List Char) : Nat → List Char → List Char
  | 0, l => l
  | _ + 1, [] => []
  | fuel + 1, c :: rest =>
    if !pat.isEmpty && pat.isPrefixOf (c :: rest) then
      removeOccGo pat fuel (rest.drop (pat.length - 1))
    else c :: removeOccGo pat fuel rest

/-- Python `s.replace(pat, "")`. -/
def removeOcc (pat l : List Char) : List Char := removeOccGo pat l.length l

/-- Source `vendor`: `urlparse(url).netloc.lower().replace("www.", "")`.
Note that Python `str.replace` removes every occurrence of `"www."`, not only a
leading prefix. -/
def vendor (url : String) : String :=
  String.mk (removeOcc "www.".data ((netlocOf url).data.map Char.toLower))

/-! ### SHA-1, for the source `sid` fingerprint -/

/-- UTF-8 encoding of one character, as `str.encode("utf-8")` produces it. -/
def utf8Bytes (c : Char) : List Nat :=
  let n := c.toNat
  if n < 128 then [n]
  else if n < 2048 then [192 + n / 64, 128 + n % 64]
  else if n < 65536 then [224 + n / 4096, 128 + n / 64 % 64, 128 + n % 64]
  else [240 + n / 262144, 128 + n / 4096 % 64, 128 + n / 64 % 64, 128 + n % 64]

/-- Reduction modulo 2^32. -/
def u32 (n : Nat) : Nat := n % 4294967296

/-- Left rotation of a 32-bit word. -/
def rotl (k x : Nat) : Nat := ((x <<< k) ||| (x >>> (32 - k))) % 4294967296

/-- SHA-1 round constants. -/
def sha1K (i : Nat) : Nat :=
  if i < 20 then 0x5A827999 else if i < 40 then 0x6ED9EBA1
  else if i < 60 then 0x8F1BBCDC else 0xCA62C1D6

/-- SHA-1 round functions (bitwise not of a 32-bit word is xor with `0xFFFFFFFF`). -/
def sha1F (i b c d : Nat) : Nat :=
  if i < 20 then (b &&& c) ||| ((b ^^^ 0xFFFFFFFF) &&& d)
  else if i < 40 then b ^^^ c ^^^ d
  else if i < 60 then (b &&& c) ||| (b &&& d) ||| (c &&& d)
  else b ^^^ c ^^^ d

/-- SHA-1 message padding: `0x80`, zeros to 56 mod 64, then the bit length big-endian. -/
def padMsg (msg : List Nat) : List Nat :=
  let L := msg.length
  let z := (120 - (L + 1) % 64) % 64
  let bl := 8 * L
  msg ++ [128] ++ List.replicate z 0 ++
    [bl / 2 ^ 56 % 256, bl / 2 ^ 48 % 256, bl / 2 ^ 40 % 256, bl / 2 ^ 32 % 256,
     bl / 2 ^ 24 % 256, bl / 2 ^ 16 % 256, bl / 2 ^ 8 % 256, bl % 256]

/-- Big-endian 32-bit words from a byte list. -/
def toWords : List Nat → List Nat
  | b0 :: b1 :: b2 :: b3 :: rest => (b0 * 16777216 + b1 * 65536 + b2 * 256 + b3) :: toWords rest
  | _ => []

/-- Split a byte list into 64-byte chunks (fuelled). -/
def chunksGo : Nat → List Nat → List (List Nat)
  | 0, _ => []
  | _ + 1, [] => []
  | fuel + 1, l => l.take 64 :: chunksGo fuel (l.drop 64)

/-- Extend the 16 schedule words to 80. -/
def expandW : Nat → List Nat → List Nat
  | 0, w => w
  | n + 1, w =>
    let i := w.length
    expandW n
      (w ++ [rotl 1 ((w.getD (i - 3) 0) ^^^ (w.getD (i - 8) 0) ^^^
        (w.getD (i - 14) 0) ^^^ (w.getD (i - 16) 0))])

/-- The 80 SHA-1 rounds, starting at round `i` with the given fuel. -/
def sha1Rounds (w : List Nat) : Nat → Nat → Nat × Nat × Nat × Nat × Nat → Nat × Nat × Nat × Nat × Nat
  | _, 0, st => st
  | i, fuel + 1, (a, b, c, d, e) =>
    let t := u32 (rotl 5 a + sha1F i b c d + e + sha1K i + w.getD i 0)
    sha1Rounds w (i + 1) fuel (t, a, rotl 30 b, c, d)

/-- Process one 64-byte chunk. -/
def sha1Chunk (st : Nat × Nat × Nat × Nat × Nat) (chunk : List Nat) : Nat × Nat × Nat × Nat × Nat :=
  match st with
  | (h0, h1, h2, h3, h4) =>
    match sha1Rounds (expandW 64 (toWords chunk)) 0 80 (h0, h1, h2, h3, h4) with
    | (a, b, c, d, e) => (u32 (h0 + a), u32 (h1 + b), u32 (h2 + c), u32 (h3 + d), u32 (h4 + e))

/-- Lower-case hex digit. -/
def hexChar (n : Nat) : Char := if n < 10 then Char.ofNat (48 + n) else Char.ofNat (87 + n)

/-- Eight hex digits of a 32-bit word, most significant first. -/
def hex8 (x : Nat) : List Char :=
  [hexChar (x / 2 ^ 28 % 16), hexChar (x / 2 ^ 24 % 16), hexChar (x / 2 ^ 20 % 16),
   hexChar (x / 2 ^ 16 % 16), hexChar (x / 2 ^ 12 % 16), hexChar (x / 2 ^ 8 % 16),
   hexChar (x / 2 ^ 4 % 16), hexChar (x % 16)]

/-- SHA-1 hex digest of a string: `hashlib.sha1(s.encode("utf-8")).hexdigest()`. -/
def sha1Hex (s : String) : String :=
  let msg := padMsg ((s.data.map utf8Bytes).flatten)
  match (chunksGo msg.length msg).foldl sha1Chunk
      (0x67452301, 0xEFCDAB89, 0x98BADCFE, 0x10325476, 0xC3D2E1F0) with
  | (h0, h1, h2, h3, h4) => String.mk (hex8 h0 ++ hex8 h1 ++ hex8 h2 ++ hex8 h3 ++ hex8 h4)

/-- Source `sid`: the first 12 hex digits of the SHA-1 of the URL string. -/
def sid (url : String) : String := String.mk ((sha1Hex url).data.take 12)

/-! ### Classifier: whole-word analyte detection -/

/-- Python regex `\w` word characters (ASCII fragment, which covers the
analyte names and page text the program works with). -/
def isWordChar (c : Char) : Bool := c.isAlphanum || c == '_'

/-- Python regex word boundary `\b` at position `i` of `l`: exactly one side of
the position is a word character (positions outside the text count as non-word). -/
def boundaryAt (l : List Char) (i : Nat) : Bool :=
  let before := match i with
    | 0 => false
    | j + 1 => match l[j]? with | some c => isWordChar c | none => false
  let after := match l[i]? with | some c => isWordChar c | none => false
  before != after

/-- Python `re.search(rf"\b{re.escape(pat)}\b", l)` for a literal pattern `pat`:
some occurrence of `pat` has a word boundary on both sides. -/
def searchWB (pat l : List Char) : Bool :=
  (List.range (l.length + 1)).any (fun i =>
    pat.isPrefixOf (l.drop i) && boundaryAt l i && boundaryAt l (i + pat.length))

/-- Case-insensitive whole-word occurrence of `pat` in `blob`; the source
upper-cases both sides before searching. -/
def wholeWord (pat blob : String) : Bool :=
  searchWB (pat.data.map Char.toUpper) (blob.data.map Char.toUpper)

/-- Alias branch of source `detect_analyte`: first alias-table entry (in
insertion order) whose canonical name is requested and one of whose aliases
occurs whole-word in the upper-cased blob. -/
def detectAlias (up : List Char) (analytes : List String) :
    List (String × List String) → Option String
  | [] => none
  | (canon, alist) :: rest =>
    if analytes.contains canon && alist.any (fun al => searchWB (al.data.map Char.toUpper) up) then
      some canon
    else detectAlias up analytes rest

/-- Source `detect_analyte`: exact whole-word match of a requested analyte first,
in declaration order; otherwise the alias table. -/
def detect_analyte (blob : String) (analytes : List String)
    (aliases : List (String × List String)) : Option String :=
  let up := blob.data.map Char.toUpper
  match analytes.find? (fun a => searchWB (a.data.map Char.toUpper) up) with
  | some a => some a
  | none => detectAlias up analytes aliases

/-- The alias table hard-coded in source `main`. -/
def aliases0 : List (String × List String) :=
  [("CXCL10", ["IP-10", "IP10", "CRG-2", "CRG2", "INTERFERON GAMMA INDUCED PROTEIN 10"])]

/-- Source `species_ok`. -/
def species_ok (text species : String) : Bool :=
  let s := (pyStrip species.data).map Char.toLower
  if s.isEmpty then true
  else
    let t := text.data.map Char.toLower
    containsSub s t || (s == "mouse".data && (containsSub "mus musculus".data t || containsSub "mice".data t))

/-- Source `samples_ok`. -/
def samples_ok (text : String) (sample_terms : List String) : Bool :=
  if sample_terms.isEmpty then true
  else
    let t := text.data.map Char.toLower
    sample_terms.any (fun st => containsSub (st.data.map Char.toLower) t)

/-! ### Domain filter: `to_urls` -/

/-- One search-backend result record; the source reads only the `href` and
`url` fields of the returned dict (`r.get("href") or r.get("url") or ""`). -/
structure SearchResult where
  href : Option String
  url : Option String
deriving DecidableEq

/-- Python `a or b` for an optional string `a`: an absent or empty string is
falsy, so the alternative is used. -/
def orStr (o : Option String) (alt : String) : String :=
  match o with
  | some s => if s.isEmpty then alt else s
  | none => alt

/-- The URL the source extracts from one result record. -/
def pickUrl (r : SearchResult) : String := orStr r.href (orStr r.url "")

/-- Python `s.endswith(suf)`. -/
def endsWithStr (s suf : String) : Bool := suf.data.isSuffixOf s.data

/-- One iteration of the loop of source `to_urls`: extract the URL, drop it
unless it starts with `http://` or `https://`, then apply the domain guard
`if allow_domains and not (dom in allow_domains or any(...))` — where Python
truthiness makes an empty allow set behave like `None`. -/
def toUrlOne (allow_domains : Option (List String)) (r : SearchResult) : Option String :=
  let u := pickUrl r
  if !("http://".data.isPrefixOf u.data || "https://".data.isPrefixOf u.data) then none
  else
    let dom := vendor u
    match allow_domains with
    | none => some u
    | some ds =>
      if !ds.isEmpty && !(ds.contains dom || ds.any (fun d => endsWithStr dom ("." ++ d))) then
        none
      else some u

/-- Source `to_urls`: the kept URLs of all result records, in order. -/
def to_urls (results : List SearchResult) (allow_domains : Option (List String)) : List String :=
  results.filterMap (toUrlOne allow_domains)

/-! ### Fetcher: `fetch_page` -/

/-- An HTTP response as the source consumes it: `r.status_code` (checked by
`raise_for_status`), `r.text` (fed to the HTML parser) and `r.url` (the final
URL after redirects). -/
structure HttpResponse where
  status : Nat
  body : String
  url : String
deriving DecidableEq

/-- The HTML-to-text extraction, an external collaborator: the title tag text
when a title tag is present, and the visible text (`soup.get_text(" ")` after
script/style/noscript removal), both before whitespace normalization. -/
structure ParsedPage where
  title : Option String
  text : String
deriving DecidableEq

/-- Source `fetch_page`.  The network is modelled as the list of outcomes
successive GET attempts would produce (an exception or a response) and the
parser as a fallible function; the `try`/`except` wrapper absorbs every
failure into `none`.  `raise_for_status` raises exactly for statuses in
`[400, 600)`.  Only the head of `attempts` is ever consumed: the source
issues a single GET and never retries. -/
def fetch_page (attempts : List (Except Unit HttpResponse))
    (parse : String → Except Unit ParsedPage) (url : String) :
    Option (String × String × String) :=
  match attempts with
  | [] => none
  | att :: _ =>
    match att with
    | Except.error _ => none
    | Except.ok r =>
      if 400 ≤ r.status ∧ r.status < 600 then none
      else
        match parse r.body with
        | Except.error _ => none
        | Except.ok pg =>
          let title := match pg.title with
            | some t => if t.isEmpty then "" else norm t
            | none => ""
          some (url, r.url, title ++ "\n" ++ norm pg.text)

/-! ### PageHit, gates and the vendor matrix aggregator -/

/-- Source dataclass `PageHit`. -/
structure PageHit where
  final_url : String
  vendor : String
  analyte : String
  title : String
  species_found : Bool
  samples_found : Bool
  has_elisa : Bool
deriving DecidableEq

/-- Source `keep`: the configurable accept/reject gates. -/
def keep (ph : PageHit) (require_species require_samples require_elisa : Bool) : Bool :=
  if require_species && !ph.species_found then false
  else if require_samples && !ph.samples_found then false
  else if require_elisa && !ph.has_elisa then false
  else true

/-- A Python dict of hit lists per analyte, as an insertion-ordered association list. -/
abbrev Row := List (String × List PageHit)

/-- The vendor matrix: vendor, then analyte, then the ordered hit list. -/
abbrev VMatrix := List (String × Row)

/-- Lookup in an insertion-ordered association list (`d[k]` when it succeeds). -/
def alookup {α : Type} : List (String × α) → String → Option α
  | [], _ => none
  | (k, v) :: rest, key => if k = key then some v else alookup rest key

/-- Python `d.setdefault(k, v)`: insert at the end only when the key is absent. -/
def setdefault {α : Type} (d : List (String × α)) (k : String) (v : α) : List (String × α) :=
  match alookup d k with
  | some _ => d
  | none => d ++ [(k, v)]

/-- Replace the value stored at a key (the in-place mutation `d[k] = w`). -/
def dictSet {α : Type} : List (String × α) → String → α → List (String × α)
  | [], _, _ => []
  | (k, v) :: rest, key, w => if k = key then (k, w) :: rest else (k, v) :: dictSet rest key w

/-- First-occurrence deduplication of a key list, fuelled for structural
recursion; Python dict comprehensions keep the first position of each key. -/
def firstOccurGo : Nat → List String → List String
  | 0, _ => []
  | _ + 1, [] => []
  | fuel + 1, x :: xs => x :: firstOccurGo fuel (xs.filter (fun y => !(y == x)))

/-- Keys of a Python dict built by comprehension over a list. -/
def firstOccur (l : List String) : List String := firstOccurGo l.length l

/-- The dict `{a: [] for a in analytes}` used as the per-vendor default row. -/
def freshRow (analytes : List String) : Row :=
  (firstOccur analytes).map (fun a => (a, ([] : List PageHit)))

/-- One iteration of the accumulation loop of source `match_by_vendor`:
`out.setdefault(ph.vendor, {a: [] for a in analytes})` followed by
`out[ph.vendor][ph.analyte].append(ph)`.  The second lookup raises `KeyError`
(modelled as `none`) when `ph.analyte` is not a requested analyte. -/
def mbvStep (analytes : List String) (out : VMatrix) (ph : PageHit) : Option VMatrix :=
  let out1 := setdefault out ph.vendor (freshRow analytes)
  match alookup out1 ph.vendor with
  | none => none
  | some row =>
    match alookup row ph.analyte with
    | none => none
    | some hits => some (dictSet out1 ph.vendor (dictSet row ph.analyte (hits ++ [ph])))

/-- The accumulation loop of source `match_by_vendor` over all hits. -/
def buildOut (analytes : List String) : VMatrix → List PageHit → Option VMatrix
  | out, [] => some out
  | out, ph :: rest =>
    match mbvStep analytes out ph with
    | none => none
    | some out2 => buildOut analytes out2 rest

/-- Python `all(d[a] for a in analytes)`: short-circuiting, with a `KeyError`
(modelled as `none`) on the first missing key it actually evaluates. -/
def rowComplete (row : Row) : List String → Option Bool
  | [] => some true
  | a :: rest =>
    match alookup row a with
    | none => none
    | some hits => if hits.isEmpty then some false else rowComplete row rest

/-- The final comprehension of source `match_by_vendor`:
`{v: d for v, d in out.items() if all(d[a] for a in analytes)}`. -/
def filterComplete (analytes : List String) : VMatrix → Option VMatrix
  | [] => some []
  | (v, row) :: rest =>
    match rowComplete row analytes with
    | none => none
    | some b =>
      match filterComplete analytes rest with
      | none => none
      | some kept => some (if b then (v, row) :: kept else kept)

/-- Source `match_by_vendor`.  `none` models the `KeyError` the Python code
raises when some hit's analyte is not in `analytes`. -/
def match_by_vendor (pagehits : List PageHit) (analytes : List String) : Option VMatrix :=
  match buildOut analytes [] pagehits with
  | none => none
  | some out => filterComplete analytes out

/-! ### Pipeline controller: result consumption with early stop -/

/-- Truthiness of `match_by_vendor(pagehits, analytes)` as the early-stop test
reads it; `false` also when the call would raise. -/
def matched_nonempty (analytes : List String) (hits : List PageHit) : Bool :=
  match match_by_vendor hits analytes with
  | none => false
  | some m => !m.isEmpty

/-- The `as_completed` consumption loop of source `main` with `--early-stop`
set and the budget not yet expired: each task result is an accepted `PageHit`
or `None` (no hit, fetch failure or task fault); after appending an accepted
hit the loop recomputes `match_by_vendor` and breaks once it is non-empty.
Returns the number of results consumed and the accumulated hits; `none`
models a propagating `KeyError`. -/
def consume (analytes : List String) :
    List PageHit → Nat → List (Option PageHit) → Option (Nat × List PageHit)
  | acc, n, [] => some (n, acc)
  | acc, n, none :: rest => consume analytes acc (n + 1) rest
  | acc, n, some ph :: rest =>
    let acc2 := acc ++ [ph]
    match match_by_vendor acc2 analytes with
    | none => none
    | some m => if m.isEmpty then consume analytes acc2 (n + 1) rest else some (n + 1, acc2)

/-! ### URL collector -/

/-- Source closure `add` in `main`: state is `(candidates, seen)`; each URL's
fingerprint is computed, already-seen URLs are skipped, otherwise the
fingerprint is recorded and the URL appended, and the batch stops as soon as
the candidate count reaches `max_fetch`. -/
def addLoop (max_fetch : Nat) : List String × List String → List String → List String × List String
  | (cands, seen), [] => (cands, seen)
  | (cands, seen), u :: rest =>
    let k := sid u
    if k ∈ seen then addLoop max_fetch (cands, seen) rest
    else
      let seen2 := seen ++ [k]
      let cands2 := cands ++ [u]
      if max_fetch ≤ cands2.length then (cands2, seen2)
      else addLoop max_fetch (cands2, seen2) rest

/-- The collection rounds of source `main`: before each discovery batch the
loop re-checks `len(candidates) >= args.max_fetch` and stops issuing further
batches once the cap is reached (the expired-budget check, which only skips
rounds, is modelled as not yet triggered). -/
def collectRounds (max_fetch : Nat) :
    List String × List String → List (List String) → List String × List String
  | st, [] => st
  | st, batch :: rest =>
    if max_fetch ≤ st.1.length then st
    else collectRounds max_fetch (addLoop max_fetch st batch) rest

/-! ### CLI precondition and worker -/

/-- Source `main`: `[a.strip() for a in args.analytes if a.strip()]`. -/
def cleanAnalytes (raw : List String) : List String :=
  raw.filterMap (fun a =>
    let t := String.mk (pyStrip a.data)
    if t.isEmpty then none else some t)

/-- The analyte-count precondition of source `main`:
`if len(analytes) < 2: raise SystemExit("Need >=2 analytes")`. -/
def checkAnalytes (raw : List String) : Except String (List String) :=
  let analytes := cleanAnalytes raw
  if analytes.length < 2 then Except.error "Need >=2 analytes" else Except.ok analytes

/-- Source `main` up to the precondition: when the check fails the process
exits before any discovery, collection or fetch work (`work`) runs. -/
def runMain {α : Type} (raw : List String) (work : List String → α) : Except String α :=
  match checkAnalytes raw with
  | Except.error e => Except.error e
  | Except.ok analytes => Except.ok (work analytes)

/-- Python `s.partition("\n")` restricted to the two components the source
uses: the text before the first newline and the text after it (empty when
there is no newline). -/
def breakNL : List Char → List Char × List Char
  | [] => ([], [])
  | c :: rest =>
    if c = '\n' then ([], rest)
    else
      let p := breakNL rest
      (c :: p.1, p.2)

/-- Source closure `worker` in `main`, with the budget not yet expired:
fetch, split title from text, classify, build the `PageHit` and apply the
gates. -/
def worker (attempts : List (Except Unit HttpResponse))
    (parse : String → Except Unit ParsedPage) (u : String)
    (analytes : List String) (aliases : List (String × List String))
    (species : String) (samples : List String)
    (require_species require_samples require_elisa : Bool) : Option PageHit :=
  match fetch_page attempts parse u with
  | none => none
  | some (_, final_url, title_and_text) =>
    let parts := breakNL title_and_text.data
    let title := String.mk parts.1
    let text := String.mk parts.2
    let blob := title ++ " " ++ text ++ " " ++ final_url
    match detect_analyte blob analytes aliases with
    | none => none
    | some a =>
      let ph : PageHit :=
        { final_url := final_url
          vendor := vendor final_url
          analyte := a
          title := title
          species_found := species_ok text species
          samples_found := samples_ok text samples
          has_elisa := containsSub "elisa".data (text.data.map Char.toLower) }
      if keep ph require_species require_samples require_elisa then some ph else none

/-! ### Definitions taken from the specification's wording, for comparison -/

/-- Modelled from the spec: "the normalized registrable host of a URL
(lower-cased, leading `www.` stripped)" — only a leading `"www."` prefix is
removed and the rest of the host is left unchanged. -/
def vendorClaimed (url : String) : String :=
  let h := String.mk ((netlocOf url).data.map Char.toLower)
  if "www.".data.isPrefixOf h.data then String.mk (h.data.drop 4) else h

/-- Modelled from the spec, claim C2: a URL passes the domain filter iff it is
an http/https URL and, when an allow set is supplied, its vendor equals some
entry `d` of the set or ends with `"." ++ d`. -/
def c2ClaimPass (u : String) (allow_domains : Option (List String)) : Bool :=
  ("http://".data.isPrefixOf u.data || "https://".data.isPrefixOf u.data) &&
    (match allow_domains with
     | none => true
     | some ds => ds.any (fun d => vendor u == d || endsWithStr (vendor u) ("." ++ d)))

/-- The amended claim C2: an allow set that is present but empty behaves like
an absent one (Python truthiness of the empty set). -/
def c2AmendedPass (u : String) (allow_domains : Option (List String)) : Bool :=
  ("http://".data.isPrefixOf u.data || "https://".data.isPrefixOf u.data) &&
    (match allow_domains with
     | none => true
     | some ds => ds.isEmpty || ds.any (fun d => vendor u == d || endsWithStr (vendor u) ("." ++ d)))

/-- Per-vendor per-analyte hit list actually accumulated from a hit sequence. -/
def hitsFor (v a : String) (hits : List PageHit) : List PageHit :=
  hits.filter (fun ph => ph.vendor == v && ph.analyte == a)

/-- The row `match_by_vendor` associates with vendor `v` after ingesting `hits`. -/
def rowFor (analytes : List String) (v : String) (hits : List PageHit) : Row :=
  (firstOccur analytes).map (fun a => (a, hitsFor v a hits))

/-- Invariant of the accumulation loop of `match_by_vendor`: after ingesting
`processed`, the keys of `out` are exactly the vendors seen so far (without
duplicates) and each vendor's row holds, per requested analyte, exactly its
hits so far in arrival order. -/
def mbvInv (analytes : List String) (processed : List PageHit) (out : VMatrix) : Prop :=
  (out.map Prod.fst).Nodup ∧
    ∀ v, alookup out v =
      if v ∈ processed.map PageHit.vendor then some (rowFor analytes v processed) else none

/-! ### Lemmas: deduplicated key lists -/

theorem firstOccurGo_mem (x : String) :
    ∀ (fuel : Nat) (l : List String), l.length ≤ fuel → (x ∈ firstOccurGo fuel l ↔ x ∈ l) := by
  intro fuel
  induction fuel with
  | zero =>
    intro l hl
    have : l = [] := List.eq_nil_of_length_eq_zero (Nat.le_zero.mp hl)
    subst this; simp [firstOccurGo]
  | succ fuel ih =>
    intro l hl
    match l with
    | [] => simp [firstOccurGo]
    | y :: ys =>
      have hlen : (ys.filter (fun z => !(z == y))).length ≤ fuel := by
        have h1 := List.length_filter_le (fun z => !(z == y)) ys
        have h2 : ys.length ≤ fuel := Nat.le_of_succ_le_succ hl
        omega
      have := ih (ys.filter (fun z => !(z == y))) hlen
      simp only [firstOccurGo, List.mem_cons, this, List.mem_filter]
      constructor
      · rintro (rfl | ⟨hmem, _⟩)
        · exact Or.inl rfl
        · exact Or.inr hmem
      · rintro (rfl | hmem)
        · exact Or.inl rfl
        · by_cases hxy : x = y
          · exact Or.inl hxy
          · exact Or.inr ⟨hmem, by simp [hxy]⟩

theorem firstOccurGo_nodup :
    ∀ (fuel : Nat) (l : List String), l.length ≤ fuel → (firstOccurGo fuel l).Nodup := by
  intro fuel
  induction fuel with
  | zero => intro l _; simp [firstOccurGo]
  | succ fuel ih =>
    intro l hl
    match l with
    | [] => simp [firstOccurGo]
    | y :: ys =>
      have hlen : (ys.filter (fun z => !(z == y))).length ≤ fuel := by
        have h1 := List.length_filter_le (fun z => !(z == y)) ys
        have h2 : ys.length ≤ fuel := Nat.le_of_succ_le_succ hl
        omega
      simp only [firstOccurGo, List.nodup_cons]
      refine ⟨?_, ih _ hlen⟩
      intro hy
      have := (firstOccurGo_mem y fuel _ hlen).mp hy
      simp [List.mem_filter] at this

theorem firstOccur_mem (x : String) (l : List String) : x ∈ firstOccur l ↔ x ∈ l :=
  firstOccurGo_mem x l.length l (Nat.le_refl _)

theorem firstOccur_nodup (l : List String) : (firstOccur l).Nodup :=
  firstOccurGo_nodup l.length l (Nat.le_refl _)

/-! ### Lemmas: association lists -/

theorem alookup_map_self {α : Type} (g : String → α) (l : List String) (x : String) :
    alookup (l.map (fun a => (a, g a))) x = if x ∈ l then some (g x) else none := by
  induction l with
  | nil => simp [alookup]
  | cons a rest ih =>
    simp only [List.map_cons, alookup]
    by_cases hax : a = x
    · subst hax; simp
    · simp only [if_neg hax, ih, List.mem_cons]
      by_cases hx : x ∈ rest
      · simp [hx, hax]
      · have : ¬(x = a ∨ x ∈ rest) := by
          rintro (rfl | h)
          · exact hax rfl
          · exact hx h
        simp [hx, this, Ne.symm hax]

theorem alookup_isSome_iff {α : Type} (d : List (String × α)) (x : String) :
    (alookup d x).isSome ↔ x ∈ d.map Prod.fst := by
  induction d with
  | nil => simp [alookup]
  | cons p rest ih =>
    match p with
    | (k, v) =>
      simp only [alookup, List.map_cons]
      by_cases hk : k = x
      · subst hk; simp
      · simp [hk, ih, Ne.symm hk]

theorem alookup_append {α : Type} (d1 d2 : List (String × α)) (x : String) :
    alookup (d1 ++ d2) x =
      match alookup d1 x with
      | some v => some v
      | none => alookup d2 x := by
  induction d1 with
  | nil => simp [alookup]
  | cons p rest ih =>
    match p with
    | (k, v) =>
      simp only [List.cons_append, alookup]
      by_cases hk : k = x
      · simp [hk]
      · simp [hk, ih]

theorem dictSet_keys {α : Type} (d : List (String × α)) (k : String) (w : α) :
    (dictSet d k w).map Prod.fst = d.map Prod.fst := by
  induction d with
  | nil => simp [dictSet]
  | cons p rest ih =>
    match p with
    | (k', v) =>
      simp only [dictSet]
      by_cases hk : k' = k
      · subst hk; simp
      · simp [hk, ih]

theorem alookup_dictSet_self {α : Type} (d : List (String × α)) (k : String) (w : α)
    (h : k ∈ d.map Prod.fst) : alookup (dictSet d k w) k = some w := by
  induction d with
  | nil => simp at h
  | cons p rest ih =>
    match p with
    | (k', v) =>
      simp only [dictSet]
      by_cases hk : k' = k
      · subst hk; simp [alookup]
      · simp only [List.map_cons, List.mem_cons] at h
        have hmem : k ∈ rest.map Prod.fst := by
          rcases h with h | h
          · exact absurd h.symm hk
          · exact h
        simp [alookup, hk, ih hmem]

theorem alookup_dictSet_ne {α : Type} (d : List (String × α)) (k : String) (w : α)
    (x : String) (h : x ≠ k) : alookup (dictSet d k w) x = alookup d x := by
  induction d with
  | nil => simp [dictSet]
  | cons p rest ih =>
    match p with
    | (k', v) =>
      by_cases hk : k' = k
      · subst hk
        have hx : ¬(k' = x) := fun hh => h hh.symm
        simp [dictSet, alookup, hx]
      · by_cases hx : k' = x
        · subst hx
          simp [dictSet, alookup, hk]
        · simp [dictSet, alookup, hk, hx, ih]

theorem alookup_of_mem_nodup {α : Type} :
    ∀ (d : List (String × α)), (d.map Prod.fst).Nodup → ∀ (k : String) (v : α),
      (k, v) ∈ d → alookup d k = some v := by
  intro d
  induction d with
  | nil => intro _ k v h; simp at h
  | cons p rest ih =>
    intro hnd k v h
    match p with
    | (k', v') =>
      simp only [List.map_cons, List.nodup_cons] at hnd
      rcases List.mem_cons.mp h with heq | hmem
      · have hk : k = k' := congrArg Prod.fst heq
        have hv : v = v' := congrArg Prod.snd heq
        subst hk; subst hv
        simp [alookup]
      · have hk' : ¬(k' = k) := by
          intro hkk
          subst hkk
          exact hnd.1 (List.mem_map.mpr ⟨(k', v), hmem, rfl⟩)
        simp [alookup, hk', ih hnd.2 k v hmem]

theorem alookup_filter {α : Type} :
    ∀ (d : List (String × α)) (q : String × α → Bool), (d.map Prod.fst).Nodup →
    ∀ (x : String),
    alookup (d.filter q) x =
      match alookup d x with
      | none => none
      | some v => if q (x, v) then some v else none := by
  intro d
  induction d with
  | nil => intro q _ x; simp [alookup]
  | cons p rest ih =>
    intro q hnd x
    match p with
    | (k, v) =>
      simp only [List.map_cons, List.nodup_cons] at hnd
      by_cases hk : k = x
      · subst hk
        by_cases hq : q (k, v)
        · simp [List.filter_cons, hq, alookup]
        · have hnone : alookup (rest.filter q) k = none := by
            cases hmem : alookup (rest.filter q) k with
            | none => rfl
            | some w =>
              exfalso
              have hsome : (alookup (rest.filter q) k).isSome := by rw [hmem]; rfl
              have hmemk := (alookup_isSome_iff _ _).mp hsome
              rcases List.mem_map.mp hmemk with ⟨pr, hpr, hfst⟩
              exact hnd.1 (List.mem_map.mpr ⟨pr, (List.mem_filter.mp hpr).1, hfst⟩)
          simp [List.filter_cons, hq, alookup, hnone]
      · by_cases hq : q (k, v)
        · simp [List.filter_cons, hq, alookup, hk, ih q hnd.2 x]
        · simp [List.filter_cons, hq, alookup, hk, ih q hnd.2 x]

/-! ### Lemmas: hit accumulation in `match_by_vendor` -/

theorem hitsFor_append (v a : String) (hits : List PageHit) (ph : PageHit) :
    hitsFor v a (hits ++ [ph]) =
      hitsFor v a hits ++ (if ph.vendor = v ∧ ph.analyte = a then [ph] else []) := by
  unfold hitsFor
  rw [List.filter_append]
  by_cases h1 : ph.vendor = v <;> by_cases h2 : ph.analyte = a <;>
    simp [List.filter_cons, h1, h2]

theorem hitsFor_of_not_mem (v a : String) (hits : List PageHit)
    (h : v ∉ hits.map PageHit.vendor) : hitsFor v a hits = [] := by
  unfold hitsFor
  rw [List.filter_eq_nil_iff]
  intro ph hph
  have : ph.vendor ≠ v := by
    intro hv
    exact h (List.mem_map.mpr ⟨ph, hph, hv⟩)
  simp [this]

theorem alookup_rowFor (analytes : List String) (v : String) (hits : List PageHit) (a : String) :
    alookup (rowFor analytes v hits) a = if a ∈ analytes then some (hitsFor v a hits) else none := by
  unfold rowFor
  rw [alookup_map_self]
  simp [firstOccur_mem]

theorem alookup_freshRow (analytes : List String) (a : String) :
    alookup (freshRow analytes) a = if a ∈ analytes then some ([] : List PageHit) else none := by
  unfold freshRow
  rw [alookup_map_self]
  simp [firstOccur_mem]

theorem rowFor_append_ne (analytes : List String) (v : String) (hits : List PageHit)
    (ph : PageHit) (h : ph.vendor ≠ v) :
    rowFor analytes v (hits ++ [ph]) = rowFor analytes v hits := by
  unfold rowFor
  apply List.map_congr_left
  intro a _
  rw [hitsFor_append]
  simp [h]

theorem dictSet_map_self {α : Type} :
    ∀ (l : List String), l.Nodup → ∀ (g : String → α) (k : String) (w : α),
    dictSet (l.map (fun a => (a, g a))) k w =
      l.map (fun a => (a, if a = k then w else g a)) := by
  intro l
  induction l with
  | nil => intro _ g k w; simp [dictSet]
  | cons a rest ih =>
    intro hnd g k w
    simp only [List.nodup_cons] at hnd
    simp only [List.map_cons, dictSet]
    by_cases hak : a = k
    · subst hak
      simp only [if_true, if_pos rfl]
      congr 1
      apply List.map_congr_left
      intro b hb
      have hba : ¬(b = a) := fun hh => hnd.1 (hh ▸ hb)
      simp [hba]
    · simp only [if_neg hak, ih hnd.2]

theorem rowFor_append_self (analytes : List String) (hits : List PageHit) (ph : PageHit) :
    rowFor analytes ph.vendor (hits ++ [ph]) =
      dictSet (rowFor analytes ph.vendor hits) ph.analyte
        (hitsFor ph.vendor ph.analyte hits ++ [ph]) := by
  unfold rowFor
  rw [dictSet_map_self _ (firstOccur_nodup analytes)]
  apply List.map_congr_left
  intro a _
  rw [hitsFor_append]
  by_cases ha : a = ph.analyte
  · subst ha; simp
  · have : ¬(ph.analyte = a) := fun hh => ha hh.symm
    simp [ha, this]

theorem mbvStep_none (analytes : List String) (processed : List PageHit) (out : VMatrix)
    (ph : PageHit) (hinv : mbvInv analytes processed out) (h : ph.analyte ∉ analytes) :
    mbvStep analytes out ph = none := by
  obtain ⟨hnd, hchar⟩ := hinv
  by_cases hv : ph.vendor ∈ processed.map PageHit.vendor
  · have h1 : alookup out ph.vendor = some (rowFor analytes ph.vendor processed) := by
      rw [hchar]; simp [hv]
    have hsd : setdefault out ph.vendor (freshRow analytes) = out := by
      unfold setdefault; rw [h1]
    have h2 : alookup (rowFor analytes ph.vendor processed) ph.analyte = none := by
      rw [alookup_rowFor]; simp [h]
    simp only [mbvStep, hsd, h1, h2]
  · have h1 : alookup out ph.vendor = none := by
      rw [hchar]; simp [hv]
    have hsd : setdefault out ph.vendor (freshRow analytes) =
        out ++ [(ph.vendor, freshRow analytes)] := by
      unfold setdefault; rw [h1]
    have h2 : alookup (out ++ [(ph.vendor, freshRow analytes)]) ph.vendor =
        some (freshRow analytes) := by
      rw [alookup_append, h1]
      simp [alookup]
    have h3 : alookup (freshRow analytes) ph.analyte = none := by
      rw [alookup_freshRow]; simp [h]
    simp only [mbvStep, hsd, h2, h3]

theorem mbvStep_some (analytes : List String) (processed : List PageHit) (out : VMatrix)
    (ph : PageHit) (hinv : mbvInv analytes processed out) (h : ph.analyte ∈ analytes) :
    ∃ out2, mbvStep analytes out ph = some out2 ∧
      mbvInv analytes (processed ++ [ph]) out2 := by
  obtain ⟨hnd, hchar⟩ := hinv
  by_cases hv : ph.vendor ∈ processed.map PageHit.vendor
  · -- the vendor already has a row
    have h1 : alookup out ph.vendor = some (rowFor analytes ph.vendor processed) := by
      rw [hchar]; simp [hv]
    have hsd : setdefault out ph.vendor (freshRow analytes) = out := by
      unfold setdefault; rw [h1]
    have h2 : alookup (rowFor analytes ph.vendor processed) ph.analyte =
        some (hitsFor ph.vendor ph.analyte processed) := by
      rw [alookup_rowFor]; simp [h]
    refine ⟨dictSet out ph.vendor
      (dictSet (rowFor analytes ph.vendor processed) ph.analyte
        (hitsFor ph.vendor ph.analyte processed ++ [ph])), ?_, ?_⟩
    · simp only [mbvStep, hsd, h1, h2]
    · unfold mbvInv
      refine ⟨by rw [dictSet_keys]; exact hnd, ?_⟩
      intro w
      by_cases hw : w = ph.vendor
      · subst hw
        have hkeys : ph.vendor ∈ out.map Prod.fst := by
          rw [← alookup_isSome_iff, h1]; rfl
        rw [alookup_dictSet_self _ _ _ hkeys]
        have hv2 : ph.vendor ∈ (processed ++ [ph]).map PageHit.vendor := by simp
        rw [if_pos hv2, ← rowFor_append_self _ _ _]
      · rw [alookup_dictSet_ne _ _ _ _ hw, hchar w]
        have hvw : ¬(ph.vendor = w) := fun hh => hw hh.symm
        have hrow := rowFor_append_ne analytes w processed ph hvw
        by_cases hwp : w ∈ processed.map PageHit.vendor
        · simp [hwp, hw, hrow]
        · simp [hwp, hw]
  · -- new vendor: setdefault appends a fresh row
    have h1 : alookup out ph.vendor = none := by
      rw [hchar]; simp [hv]
    have hsd : setdefault out ph.vendor (freshRow analytes) =
        out ++ [(ph.vendor, freshRow analytes)] := by
      unfold setdefault; rw [h1]
    have h2 : alookup (out ++ [(ph.vendor, freshRow analytes)]) ph.vendor =
        some (freshRow analytes) := by
      rw [alookup_append, h1]
      simp [alookup]
    have h3 : alookup (freshRow analytes) ph.analyte = some ([] : List PageHit) := by
      rw [alookup_freshRow]; simp [h]
    have hnotkey : ph.vendor ∉ out.map Prod.fst := by
      rw [← alookup_isSome_iff, h1]
      simp
    have hfreshIsRow : dictSet (freshRow analytes) ph.analyte ([] ++ [ph]) =
        rowFor analytes ph.vendor (processed ++ [ph]) := by
      unfold freshRow
      rw [dictSet_map_self _ (firstOccur_nodup analytes)]
      unfold rowFor
      apply List.map_congr_left
      intro a _
      rw [hitsFor_append, hitsFor_of_not_mem _ _ _ hv]
      by_cases ha : a = ph.analyte
      · subst ha; simp
      · have hne : ¬(ph.analyte = a) := fun hh => ha hh.symm
        simp [ha, hne]
    refine ⟨dictSet (out ++ [(ph.vendor, freshRow analytes)]) ph.vendor
      (dictSet (freshRow analytes) ph.analyte ([] ++ [ph])), ?_, ?_⟩
    · simp only [mbvStep, hsd, h2, h3]
    · unfold mbvInv
      constructor
      · rw [dictSet_keys, List.map_append]
        rw [List.nodup_append]
        refine ⟨hnd, by simp, ?_⟩
        intro x hx
        simp only [List.map_cons, List.map_nil, List.mem_singleton]
        intro hxv
        subst hxv
        exact hnotkey hx
      · intro w
        by_cases hw : w = ph.vendor
        · subst hw
          have hkeys : ph.vendor ∈ ((out ++ [(ph.vendor, freshRow analytes)]).map Prod.fst) := by
            simp
          rw [alookup_dictSet_self _ _ _ hkeys, hfreshIsRow]
          have hv2 : ph.vendor ∈ (processed ++ [ph]).map PageHit.vendor := by simp
          rw [if_pos hv2]
        · rw [alookup_dictSet_ne _ _ _ _ hw, alookup_append]
          have hvw : ¬(ph.vendor = w) := fun hh => hw hh.symm
          have hrow := rowFor_append_ne analytes w processed ph hvw
          by_cases hwp : w ∈ processed.map PageHit.vendor
          · simp [hchar w, hwp, hw, hrow, alookup, hvw]
          · simp [hchar w, hwp, hw, hvw, alookup]

theorem mbvInv_nil (analytes : List String) : mbvInv analytes [] [] := by
  constructor
  · simp
  · intro v; simp [alookup]

theorem buildOut_inv (analytes : List String) :
    ∀ (rest : List PageHit) (processed : List PageHit) (out : VMatrix),
      mbvInv analytes processed out → (∀ ph ∈ rest, ph.analyte ∈ analytes) →
      ∃ out2, buildOut analytes out rest = some out2 ∧
        mbvInv analytes (processed ++ rest) out2 := by
  intro rest
  induction rest with
  | nil =>
    intro processed out hinv _
    exact ⟨out, rfl, by simpa using hinv⟩
  | cons ph rest ih =>
    intro processed out hinv hmem
    obtain ⟨out2, hstep, hinv2⟩ :=
      mbvStep_some analytes processed out ph hinv (hmem ph (by simp))
    obtain ⟨out3, hbuild, hinv3⟩ :=
      ih (processed ++ [ph]) out2 hinv2 (fun p hp => hmem p (by simp [hp]))
    refine ⟨out3, ?_, ?_⟩
    · simp only [buildOut, hstep, hbuild]
    · rw [List.append_assoc, List.singleton_append] at hinv3
      exact hinv3

theorem buildOut_some_forall (analytes : List String) :
    ∀ (rest : List PageHit) (processed : List PageHit) (out : VMatrix),
      mbvInv analytes processed out → (buildOut analytes out rest).isSome →
      ∀ ph ∈ rest, ph.analyte ∈ analytes := by
  intro rest
  induction rest with
  | nil => intro _ _ _ _ ph hph; simp at hph
  | cons ph0 rest ih =>
    intro processed out hinv hsome ph hph
    by_cases hmem : ph0.analyte ∈ analytes
    · obtain ⟨out2, hstep, hinv2⟩ := mbvStep_some analytes processed out ph0 hinv hmem
      rcases List.mem_cons.mp hph with rfl | htail
      · exact hmem
      · have heq : buildOut analytes out (ph0 :: rest) = buildOut analytes out2 rest := by
          simp only [buildOut, hstep]
        rw [heq] at hsome
        exact ih (processed ++ [ph0]) out2 hinv2 hsome ph htail
    · exfalso
      have hnone := mbvStep_none analytes processed out ph0 hinv hmem
      have heq : buildOut analytes out (ph0 :: rest) = none := by
        simp only [buildOut, hnone]
      rw [heq] at hsome
      simp at hsome

theorem rowComplete_eq (row : Row) (f : String → List PageHit) :
    ∀ (as : List String), (∀ a ∈ as, alookup row a = some (f a)) →
      rowComplete row as = some (as.all (fun a => !(f a).isEmpty)) := by
  intro as
  induction as with
  | nil => intro _; rfl
  | cons a rest ih =>
    intro hl
    have ha := hl a (by simp)
    simp only [rowComplete, ha]
    by_cases he : (f a).isEmpty
    · simp [he]
    · simp [he, ih (fun b hb => hl b (by simp [hb]))]

theorem filterComplete_eq (analytes : List String) :
    ∀ (out : VMatrix) (q : String → Bool),
      (∀ p ∈ out, rowComplete p.2 analytes = some (q p.1)) →
      filterComplete analytes out = some (out.filter (fun p => q p.1)) := by
  intro out
  induction out with
  | nil => intro _ _; rfl
  | cons p rest ih =>
    intro q hq
    match p with
    | (v, row) =>
      have hp : rowComplete row analytes = some (q v) := hq (v, row) (by simp)
      have hrest := ih q (fun r hr => hq r (by simp [hr]))
      simp only [filterComplete, hp, hrest]
      by_cases hqv : q v
      · simp [List.filter_cons, hqv]
      · simp [List.filter_cons, hqv]

theorem mbv_char (hits : List PageHit) (analytes : List String)
    (hmem : ∀ ph ∈ hits, ph.analyte ∈ analytes) :
    ∃ m, match_by_vendor hits analytes = some m ∧
      (m.map Prod.fst).Nodup ∧
      ∀ v, alookup m v =
        if v ∈ hits.map PageHit.vendor ∧
            analytes.all (fun a => !(hitsFor v a hits).isEmpty) = true
        then some (rowFor analytes v hits) else none := by
  obtain ⟨out, hbuild, hinv⟩ :=
    buildOut_inv analytes hits [] [] (mbvInv_nil analytes) hmem
  rw [List.nil_append] at hinv
  obtain ⟨hnd, hchar⟩ := hinv
  set q : String → Bool := fun v => analytes.all (fun a => !(hitsFor v a hits).isEmpty) with hqdef
  have hrows : ∀ p ∈ out, rowComplete p.2 analytes = some (q p.1) := by
    intro p hp
    match p with
    | (v, row) =>
      have hl : alookup out v = some row := alookup_of_mem_nodup out hnd v row hp
      have hv : v ∈ hits.map PageHit.vendor := by
        by_contra hvn
        rw [hchar v, if_neg hvn] at hl
        exact Option.noConfusion hl
      have hrow : row = rowFor analytes v hits := by
        rw [hchar v, if_pos hv] at hl
        exact (Option.some.injEq .. ▸ hl).symm
      subst hrow
      exact rowComplete_eq _ (fun a => hitsFor v a hits) analytes
        (fun a ha => by rw [alookup_rowFor, if_pos ha])
  have hfc := filterComplete_eq analytes out q hrows
  refine ⟨out.filter (fun p => q p.1), ?_, ?_, ?_⟩
  · unfold match_by_vendor
    rw [hbuild]
    exact hfc
  · exact List.Nodup.sublist (List.Sublist.map Prod.fst (List.filter_sublist out)) hnd
  · intro v
    have hfl := alookup_filter out (fun p => q p.1) hnd v
    rw [hfl]
    by_cases hv : v ∈ hits.map PageHit.vendor
    · rw [hchar v, if_pos hv]
      by_cases hq : q v = true
      · simp only [hq, if_true, if_pos (And.intro hv hq)]
      · rw [if_neg (fun hh => hq hh.2)]
        simp [hq]
    · rw [hchar v, if_neg hv]
      rw [if_neg (fun hh => hv hh.1)]

theorem mbv_isSome_iff (hits : List PageHit) (analytes : List String) :
    (match_by_vendor hits analytes).isSome ↔ ∀ ph ∈ hits, ph.analyte ∈ analytes := by
  constructor
  · intro hsome
    have hbuild : (buildOut analytes [] hits).isSome := by
      unfold match_by_vendor at hsome
      cases hb : buildOut analytes [] hits with
      | none => rw [hb] at hsome; simp at hsome
      | some out => rfl
    exact buildOut_some_forall analytes hits [] [] (mbvInv_nil analytes) hbuild
  · intro hmem
    obtain ⟨m, hm, _⟩ := mbv_char hits analytes hmem
    rw [hm]; rfl

/-- C1: for every finite set of accumulated `PageHit`s whose analyte fields are
all requested, `match_by_vendor` succeeds and a vendor appears in the returned
mapping (`completeVendors`) if and only if, for every requested analyte, that
vendor has at least one hit with that analyte.  (The program guarantees at
least two requested analytes, so the analyte list is non-empty.) -/
theorem elisa_c1_complete_vendors_iff (hits : List PageHit) (analytes : List String)
    (hmem : ∀ ph ∈ hits, ph.analyte ∈ analytes) (hne : analytes ≠ []) :
    ∃ m, match_by_vendor hits analytes = some m ∧
      ∀ v, (alookup m v).isSome ↔
        ∀ a ∈ analytes, ∃ ph ∈ hits, ph.vendor = v ∧ ph.analyte = a := by
  obtain ⟨m, hm, hnd, hchar⟩ := mbv_char hits analytes hmem
  refine ⟨m, hm, ?_⟩
  intro v
  rw [hchar v]
  constructor
  · intro hsome
    by_cases hc : v ∈ hits.map PageHit.vendor ∧
        analytes.all (fun a => !(hitsFor v a hits).isEmpty) = true
    · intro a ha
      have hall := hc.2
      rw [List.all_eq_true] at hall
      have hne2 := hall a ha
      have hnil : hitsFor v a hits ≠ [] := by
        intro hnil
        rw [hnil] at hne2
        simp at hne2
      obtain ⟨ph, hphmem⟩ := List.exists_mem_of_ne_nil _ hnil
      unfold hitsFor at hphmem
      have hsplit := List.mem_filter.mp hphmem
      have hcond := hsplit.2
      simp only [Bool.and_eq_true, beq_iff_eq] at hcond
      exact ⟨ph, hsplit.1, hcond.1, hcond.2⟩
    · rw [if_neg hc] at hsome
      simp at hsome
  · intro hforall
    obtain ⟨a0, ha0⟩ := List.exists_mem_of_ne_nil analytes hne
    obtain ⟨ph0, hph0, hv0, _⟩ := hforall a0 ha0
    have hvin : v ∈ hits.map PageHit.vendor := List.mem_map.mpr ⟨ph0, hph0, hv0⟩
    have hall : analytes.all (fun a => !(hitsFor v a hits).isEmpty) = true := by
      rw [List.all_eq_true]
      intro a ha
      obtain ⟨ph, hph, hv, hA⟩ := hforall a ha
      have hin : ph ∈ hitsFor v a hits := by
        unfold hitsFor
        rw [List.mem_filter]
        exact ⟨hph, by simp [hv, hA]⟩
      cases hh : hitsFor v a hits with
      | nil => rw [hh] at hin; simp at hin
      | cons x xs => simp
    rw [if_pos ⟨hvin, hall⟩]
    rfl

/-- Witness for C1: a vendor with hits for both requested analytes is reported. -/
theorem elisa_c1_complete_vendors_iff_witness :
    (∀ ph ∈ ([⟨"u1", "v", "A", "", true, true, true⟩,
              ⟨"u2", "v", "B", "", true, true, true⟩] : List PageHit),
        ph.analyte ∈ ["A", "B"]) ∧
    (["A", "B"] ≠ ([] : List String)) ∧
    (∃ m, match_by_vendor
        ([⟨"u1", "v", "A", "", true, true, true⟩,
          ⟨"u2", "v", "B", "", true, true, true⟩] : List PageHit) ["A", "B"] = some m ∧
      ∀ v, (alookup m v).isSome ↔
        ∀ a ∈ ["A", "B"], ∃ ph ∈ ([⟨"u1", "v", "A", "", true, true, true⟩,
          ⟨"u2", "v", "B", "", true, true, true⟩] : List PageHit),
            ph.vendor = v ∧ ph.analyte = a) :=
  ⟨by decide, by decide, elisa_c1_complete_vendors_iff _ _ (by decide) (by decide)⟩

/-! ### Lemmas: detection soundness and the controller loop -/

theorem detectAlias_mem (up : List Char) (analytes : List String) :
    ∀ (aliases : List (String × List String)) (c : String),
      detectAlias up analytes aliases = some c → c ∈ analytes := by
  intro aliases
  induction aliases with
  | nil => intro c h; simp [detectAlias] at h
  | cons p rest ih =>
    intro c h
    match p with
    | (canon, alist) =>
      by_cases hc : (analytes.contains canon &&
          alist.any (fun al => searchWB (al.data.map Char.toUpper) up)) = true
      · rw [detectAlias, if_pos hc] at h
        have hc2 := hc
        simp only [Bool.and_eq_true] at hc2
        have hcanon : analytes.contains canon = true := hc2.1
        have hcc : canon = c := Option.some.inj h
        subst hcc
        simpa using hcanon
      · rw [detectAlias, if_neg hc] at h
        exact ih c h

theorem detect_analyte_mem (blob : String) (analytes : List String)
    (aliases : List (String × List String)) (a : String)
    (h : detect_analyte blob analytes aliases = some a) : a ∈ analytes := by
  simp only [detect_analyte] at h
  cases hf : analytes.find?
      (fun x => searchWB (x.data.map Char.toUpper) (blob.data.map Char.toUpper)) with
  | some b =>
    rw [hf] at h
    have hb := List.mem_of_find?_eq_some hf
    rw [← Option.some.inj h]
    exact hb
  | none =>
    rw [hf] at h
    exact detectAlias_mem _ _ aliases a h

theorem worker_analyte_mem (attempts : List (Except Unit HttpResponse))
    (parse : String → Except Unit ParsedPage) (u : String)
    (analytes : List String) (aliases : List (String × List String))
    (species : String) (samples : List String)
    (rs rsa rel : Bool) (ph : PageHit)
    (h : worker attempts parse u analytes aliases species samples rs rsa rel = some ph) :
    ph.analyte ∈ analytes := by
  unfold worker at h
  split at h
  · exact absurd h (by simp)
  · dsimp only at h
    split at h
    · exact absurd h (by simp)
    · next a ha =>
      split at h
      · have hph := Option.some.inj h
        have := detect_analyte_mem _ _ _ _ ha
        rw [← hph]
        exact this
      · exact absurd h (by simp)

/-- C10: `match_by_vendor` is partial — it succeeds exactly when every hit's
analyte is a requested analyte (otherwise the `out[ph.vendor][ph.analyte]`
lookup raises `KeyError`), and the worker can only produce hits whose analyte
is requested, because `detect_analyte` only returns requested analytes. -/
theorem elisa_c10_partiality :
    (∀ (hits : List PageHit) (analytes : List String),
      (match_by_vendor hits analytes).isSome ↔ ∀ ph ∈ hits, ph.analyte ∈ analytes) ∧
    (∀ (blob : String) (analytes : List String)
        (aliases : List (String × List String)) (a : String),
      detect_analyte blob analytes aliases = some a → a ∈ analytes) ∧
    (∀ attempts parse u analytes aliases species samples rs rsa rel ph,
      worker attempts parse u analytes aliases species samples rs rsa rel = some ph →
      ph.analyte ∈ analytes) :=
  ⟨mbv_isSome_iff, detect_analyte_mem, worker_analyte_mem⟩

/-- Witness for C10: `detect_analyte` returns a requested analyte on a concrete
blob, and `match_by_vendor` fails on a hit whose analyte was never requested. -/
theorem elisa_c10_partiality_witness :
    detect_analyte "Mouse IP10 kit" ["CXCL10"] aliases0 = some "CXCL10" ∧
    "CXCL10" ∈ ["CXCL10"] ∧
    match_by_vendor ([⟨"u1", "v", "C", "", true, true, true⟩] : List PageHit) ["A", "B"] = none :=
  ⟨by decide, elisa_c10_partiality.2.1 "Mouse IP10 kit" ["CXCL10"] aliases0 "CXCL10" (by decide),
    by decide⟩

theorem matched_nonempty_nil (analytes : List String) :
    matched_nonempty analytes [] = false := rfl

theorem consume_go (analytes : List String) :
    ∀ (rest : List (Option PageHit)) (acc : List PageHit) (n : Nat),
      (∀ ph ∈ acc, ph.analyte ∈ analytes) →
      (∀ ph ∈ rest.filterMap id, ph.analyte ∈ analytes) →
      matched_nonempty analytes acc = false →
      ∃ m, consume analytes acc n rest = some (n + m, acc ++ (rest.take m).filterMap id) ∧
        m ≤ rest.length ∧
        (matched_nonempty analytes (acc ++ (rest.take m).filterMap id) = true ∨
          m = rest.length) ∧
        (∀ k, k < m → matched_nonempty analytes (acc ++ (rest.take k).filterMap id) = false) := by
  intro rest
  induction rest with
  | nil =>
    intro acc n hacc _ hfalse
    refine ⟨0, ?_, Nat.le_refl _, Or.inr rfl, ?_⟩
    · simp [consume]
    · intro k hk
      exact absurd hk (Nat.not_lt_zero k)
  | cons r rest ih =>
    intro acc n hacc hrest hfalse
    match r with
    | none =>
      have hrest2 : ∀ ph ∈ rest.filterMap id, ph.analyte ∈ analytes := by
        intro ph hph
        exact hrest ph (by simpa using hph)
      obtain ⟨m, hcons, hle, htrig, hprev⟩ := ih acc (n + 1) hacc hrest2 hfalse
      refine ⟨m + 1, ?_, by simpa using Nat.succ_le_succ hle, ?_, ?_⟩
      · have harith : n + 1 + m = n + (m + 1) := by omega
        simp only [consume, hcons, harith, List.take_succ_cons, List.filterMap_cons]
        rfl
      · rcases htrig with h | h
        · left
          simpa [List.take_succ_cons, List.filterMap_cons] using h
        · right
          simp [h]
      · intro k hk
        match k with
        | 0 => simpa using hfalse
        | k' + 1 =>
          have hk'lt : k' < m := by omega
          have := hprev k' hk'lt
          simpa [List.take_succ_cons, List.filterMap_cons] using this
    | some ph =>
      have hph : ph.analyte ∈ analytes := hrest ph (by simp)
      have hacc2 : ∀ p ∈ acc ++ [ph], p.analyte ∈ analytes := by
        intro p hp
        rcases List.mem_append.mp hp with h | h
        · exact hacc p h
        · rw [List.mem_singleton.mp h]
          exact hph
      obtain ⟨mm, hmm, _, _⟩ := mbv_char (acc ++ [ph]) analytes hacc2
      by_cases hemp : mm.isEmpty = true
      · have hmn : matched_nonempty analytes (acc ++ [ph]) = false := by
          unfold matched_nonempty
          rw [hmm]
          simp [hemp]
        have hrest2 : ∀ p ∈ rest.filterMap id, p.analyte ∈ analytes := by
          intro p hp
          exact hrest p (by simp [hp])
        obtain ⟨m, hcons, hle, htrig, hprev⟩ := ih (acc ++ [ph]) (n + 1) hacc2 hrest2 hmn
        refine ⟨m + 1, ?_, by simpa using Nat.succ_le_succ hle, ?_, ?_⟩
        · have harith : n + 1 + m = n + (m + 1) := by omega
          simp only [consume, hmm, hemp, if_true, hcons, harith,
            List.take_succ_cons, List.filterMap_cons, id]
          simp [List.append_assoc]
        · rcases htrig with h | h
          · left
            have heq : acc ++ (((some ph :: rest).take (m + 1)).filterMap id) =
                (acc ++ [ph]) ++ (rest.take m).filterMap id := by
              simp [List.take_succ_cons, List.filterMap_cons]
            rw [heq]
            exact h
          · right
            simp [h]
        · intro k hk
          match k with
          | 0 => simpa using hfalse
          | k' + 1 =>
            have hk'lt : k' < m := by omega
            have hp := hprev k' hk'lt
            have heq : acc ++ (((some ph :: rest).take (k' + 1)).filterMap id) =
                (acc ++ [ph]) ++ (rest.take k').filterMap id := by
              simp [List.take_succ_cons, List.filterMap_cons]
            rw [heq]
            exact hp
      · refine ⟨1, ?_, by simp, ?_, ?_⟩
        · simp only [consume, hmm, hemp, if_false, List.take_succ_cons, List.filterMap_cons,
            List.take_zero, List.filterMap_nil]
          rfl
        · left
          have heq : acc ++ (((some ph :: rest).take 1).filterMap id) = acc ++ [ph] := by
            simp
          rw [heq]
          unfold matched_nonempty
          rw [hmm]
          simp [hemp]
        · intro k hk
          match k with
          | 0 => simpa using hfalse

/-- C4: with early stop enabled (and the budget unexpired), for every sequence
of task results the controller consumes exactly the shortest prefix whose
accepted hits make `completeVendors` non-empty — or the whole sequence when no
prefix does — and accumulates exactly the accepted hits of that prefix. -/
theorem elisa_c4_early_stop (analytes : List String) (results : List (Option PageHit))
    (hmem : ∀ ph ∈ results.filterMap id, ph.analyte ∈ analytes) :
    ∃ m, consume analytes [] 0 results = some (m, (results.take m).filterMap id) ∧
      m ≤ results.length ∧
      (matched_nonempty analytes ((results.take m).filterMap id) = true ∨
        m = results.length) ∧
      (∀ k, k < m → matched_nonempty analytes ((results.take k).filterMap id) = false) := by
  obtain ⟨m, hcons, hle, htrig, hprev⟩ :=
    consume_go analytes results [] 0 (by simp) hmem (matched_nonempty_nil analytes)
  refine ⟨m, by simpa using hcons, hle, by simpa using htrig, ?_⟩
  intro k hk
  simpa using hprev k hk

/-- Witness for C4: vendor `"v"` completes on the third consumed result, so
exactly three results are consumed and the fourth is never read. -/
theorem elisa_c4_early_stop_witness :
    (∀ ph ∈ ([some ⟨"u1", "v", "A", "", true, true, true⟩, none,
              some ⟨"u3", "v", "B", "", true, true, true⟩,
              some ⟨"u4", "w", "A", "", true, true, true⟩] :
        List (Option PageHit)).filterMap id, ph.analyte ∈ ["A", "B"]) ∧
    (∃ m, consume ["A", "B"] [] 0
        ([some ⟨"u1", "v", "A", "", true, true, true⟩, none,
          some ⟨"u3", "v", "B", "", true, true, true⟩,
          some ⟨"u4", "w", "A", "", true, true, true⟩] : List (Option PageHit)) =
          some (m, (([some ⟨"u1", "v", "A", "", true, true, true⟩, none,
            some ⟨"u3", "v", "B", "", true, true, true⟩,
            some ⟨"u4", "w", "A", "", true, true, true⟩] :
              List (Option PageHit)).take m).filterMap id) ∧
      m ≤ 4 ∧
      (matched_nonempty ["A", "B"]
          ((([some ⟨"u1", "v", "A", "", true, true, true⟩, none,
            some ⟨"u3", "v", "B", "", true, true, true⟩,
            some ⟨"u4", "w", "A", "", true, true, true⟩] :
              List (Option PageHit)).take m).filterMap id) = true ∨ m = 4) ∧
      (∀ k, k < m → matched_nonempty ["A", "B"]
          ((([some ⟨"u1", "v", "A", "", true, true, true⟩, none,
            some ⟨"u3", "v", "B", "", true, true, true⟩,
            some ⟨"u4", "w", "A", "", true, true, true⟩] :
              List (Option PageHit)).take k).filterMap id) = false)) ∧
    consume ["A", "B"] [] 0
        ([some ⟨"u1", "v", "A", "", true, true, true⟩, none,
          some ⟨"u3", "v", "B", "", true, true, true⟩,
          some ⟨"u4", "w", "A", "", true, true, true⟩] : List (Option PageHit)) =
      some (3, [⟨"u1", "v", "A", "", true, true, true⟩,
                ⟨"u3", "v", "B", "", true, true, true⟩]) :=
  ⟨by decide, elisa_c4_early_stop ["A", "B"] _ (by decide), by decide⟩

/-! ### Lemmas: the URL collector -/

theorem addLoop_inv (max_fetch : Nat) :
    ∀ (batch : List String) (st : List String × List String),
      st.2 = st.1.map sid → (st.1.map sid).Nodup →
      (addLoop max_fetch st batch).2 = (addLoop max_fetch st batch).1.map sid ∧
        ((addLoop max_fetch st batch).1.map sid).Nodup := by
  intro batch
  induction batch with
  | nil =>
    intro st h1 h2
    obtain ⟨cands, seen⟩ := st
    simpa [addLoop] using ⟨h1, h2⟩
  | cons u rest ih =>
    intro st h1 h2
    obtain ⟨cands, seen⟩ := st
    simp only at h1 h2
    subst h1
    by_cases hk : sid u ∈ cands.map sid
    · have heq : addLoop max_fetch (cands, cands.map sid) (u :: rest) =
          addLoop max_fetch (cands, cands.map sid) rest := by
        simp only [addLoop, if_pos hk]
      rw [heq]
      exact ih (cands, cands.map sid) rfl h2
    · have hmap : (cands ++ [u]).map sid = cands.map sid ++ [sid u] := by simp
      have hnd2 : ((cands ++ [u]).map sid).Nodup := by
        rw [hmap, List.nodup_append]
        refine ⟨h2, by simp, ?_⟩
        intro x hx
        simp only [List.mem_singleton]
        intro hxu
        subst hxu
        exact hk hx
      by_cases hcap : max_fetch ≤ (cands ++ [u]).length
      · have heq : addLoop max_fetch (cands, cands.map sid) (u :: rest) =
            (cands ++ [u], cands.map sid ++ [sid u]) := by
          simp only [addLoop, if_neg hk, if_pos hcap]
        rw [heq]
        exact ⟨hmap.symm, hnd2⟩
      · have heq : addLoop max_fetch (cands, cands.map sid) (u :: rest) =
            addLoop max_fetch (cands ++ [u], cands.map sid ++ [sid u]) rest := by
          simp only [addLoop, if_neg hk, if_neg hcap]
        rw [heq]
        exact ih (cands ++ [u], cands.map sid ++ [sid u]) hmap.symm hnd2

theorem collectRounds_inv (max_fetch : Nat) :
    ∀ (batches : List (List String)) (st : List String × List String),
      st.2 = st.1.map sid → (st.1.map sid).Nodup →
      (collectRounds max_fetch st batches).2 =
          (collectRounds max_fetch st batches).1.map sid ∧
        ((collectRounds max_fetch st batches).1.map sid).Nodup := by
  intro batches
  induction batches with
  | nil =>
    intro st h1 h2
    exact ⟨h1, h2⟩
  | cons batch rest ih =>
    intro st h1 h2
    by_cases hcap : max_fetch ≤ st.1.length
    · have heq : collectRounds max_fetch st (batch :: rest) = st := by
        simp only [collectRounds, if_pos hcap]
      rw [heq]
      exact ⟨h1, h2⟩
    · have heq : collectRounds max_fetch st (batch :: rest) =
          collectRounds max_fetch (addLoop max_fetch st batch) rest := by
        simp only [collectRounds, if_neg hcap]
      rw [heq]
      obtain ⟨h1', h2'⟩ := addLoop_inv max_fetch batch st h1 h2
      exact ih (addLoop max_fetch st batch) h1' h2'

/-- C5: the collector state deduplicates by fingerprint — no two accepted
candidates share a `sid` fingerprint (so no URL string is accepted twice),
and feeding the same URL twice in one batch accepts it exactly once, with its
fingerprint recorded as seen. -/
theorem elisa_c5_dedup :
    (∀ (max_fetch : Nat) (batches : List (List String)),
      (((collectRounds max_fetch ([], []) batches).1).map sid).Nodup) ∧
    (∀ (max_fetch : Nat) (batches : List (List String)) (u : String),
      ((collectRounds max_fetch ([], []) batches).1).count u ≤ 1) ∧
    (∀ u : String, addLoop 60 ([], []) [u, u] = ([u], [sid u])) := by
  refine ⟨?_, ?_, ?_⟩
  · intro max_fetch batches
    exact (collectRounds_inv max_fetch batches ([], []) rfl (by simp)).2
  · intro max_fetch batches u
    have hnd : (((collectRounds max_fetch ([], []) batches).1).map sid).Nodup :=
      (collectRounds_inv max_fetch batches ([], []) rfl (by simp)).2
    have hnd2 : ((collectRounds max_fetch ([], []) batches).1).Nodup :=
      List.Nodup.of_map sid hnd
    exact List.nodup_iff_count_le_one.mp hnd2 u
  · intro u
    simp [addLoop]

/-- C6: the collector never accepts more than `maxFetch` candidates — the
outer rounds re-check the cap before each batch and `add` stops mid-batch as
soon as the cap is reached. -/
theorem elisa_c6_cap :
    ∀ (max_fetch : Nat) (batches : List (List String)),
      ((collectRounds max_fetch ([], []) batches).1).length ≤ max_fetch := by
  have haddLoop : ∀ (max_fetch : Nat) (batch : List String) (st : List String × List String),
      st.1.length < max_fetch → (addLoop max_fetch st batch).1.length ≤ max_fetch := by
    intro max_fetch batch
    induction batch with
    | nil =>
      intro st hlt
      obtain ⟨cands, seen⟩ := st
      simpa [addLoop] using Nat.le_of_lt hlt
    | cons u rest ih =>
      intro st hlt
      obtain ⟨cands, seen⟩ := st
      by_cases hk : sid u ∈ seen
      · have heq : addLoop max_fetch (cands, seen) (u :: rest) =
            addLoop max_fetch (cands, seen) rest := by
          simp only [addLoop, if_pos hk]
        rw [heq]
        exact ih (cands, seen) hlt
      · by_cases hcap : max_fetch ≤ (cands ++ [u]).length
        · have heq : addLoop max_fetch (cands, seen) (u :: rest) =
              (cands ++ [u], seen ++ [sid u]) := by
            simp only [addLoop, if_neg hk, if_pos hcap]
          rw [heq]
          simp only at hlt
          simp
          omega
        · have heq : addLoop max_fetch (cands, seen) (u :: rest) =
              addLoop max_fetch (cands ++ [u], seen ++ [sid u]) rest := by
            simp only [addLoop, if_neg hk, if_neg hcap]
          rw [heq]
          apply ih
          simp only [List.length_append, List.length_cons] at hcap ⊢
          omega
  have hrounds : ∀ (max_fetch : Nat) (batches : List (List String))
      (st : List String × List String),
      st.1.length ≤ max_fetch →
      (collectRounds max_fetch st batches).1.length ≤ max_fetch := by
    intro max_fetch batches
    induction batches with
    | nil => intro st h; exact h
    | cons batch rest ih =>
      intro st h
      by_cases hcap : max_fetch ≤ st.1.length
      · have heq : collectRounds max_fetch st (batch :: rest) = st := by
          simp only [collectRounds, if_pos hcap]
        rw [heq]
        exact h
      · have heq : collectRounds max_fetch st (batch :: rest) =
            collectRounds max_fetch (addLoop max_fetch st batch) rest := by
          simp only [collectRounds, if_neg hcap]
        rw [heq]
        exact ih _ (haddLoop max_fetch batch st (Nat.lt_of_not_le hcap))
  intro max_fetch batches
  exact hrounds max_fetch batches ([], []) (by simp)

/-- C9: with fewer than two non-blank analytes after stripping, the program
exits with `Need >=2 analytes` before any discovery, collection or fetch work
runs (the result does not depend on the work at all); with two or more the
exit does not occur and the work runs on the cleaned analyte list. -/
theorem elisa_c9_precondition (raw : List String) :
    ((cleanAnalytes raw).length < 2 →
      ∀ (α : Type) (work : List String → α),
        runMain raw work = Except.error "Need >=2 analytes") ∧
    (2 ≤ (cleanAnalytes raw).length →
      ∀ (α : Type) (work : List String → α),
        runMain raw work = Except.ok (work (cleanAnalytes raw))) := by
  constructor
  · intro h α work
    simp only [runMain, checkAnalytes, if_pos h]
  · intro h α work
    have h2 : ¬((cleanAnalytes raw).length < 2) := by omega
    simp only [runMain, checkAnalytes, if_neg h2]

/-- Witness for C9: one non-blank analyte exits with the error; two proceed. -/
theorem elisa_c9_precondition_witness :
    (cleanAnalytes ["NOX4", "   "]).length < 2 ∧
    runMain ["NOX4", "   "] (fun l => l) = Except.error "Need >=2 analytes" ∧
    2 ≤ (cleanAnalytes ["NOX4", "CXCL10"]).length ∧
    runMain ["NOX4", "CXCL10"] (fun l => l) = Except.ok (cleanAnalytes ["NOX4", "CXCL10"]) :=
  ⟨by decide, (elisa_c9_precondition ["NOX4", "   "]).1 (by decide) _ (fun l => l),
   by decide, (elisa_c9_precondition ["NOX4", "CXCL10"]).2 (by decide) _ (fun l => l)⟩

/-- C8 counterexample: a `304 Not Modified` response is not a 2xx status, yet
`raise_for_status` raises only for statuses in `[400, 600)`, so `fetch_page`
returns a result instead of the `none` the claim requires. -/
theorem elisa_c8_fetch_counterexample :
    fetch_page [Except.ok ⟨304, "", "https://v.com/"⟩]
        (fun _ => Except.ok ⟨none, "kit"⟩) "https://v.com/" =
      some ("https://v.com/", "https://v.com/", "\nkit") ∧
    ¬(200 ≤ 304 ∧ 304 < 300) :=
  ⟨by decide, by decide⟩

/-- C8 amended: `fetch_page` never raises — a network error, a 4xx/5xx status
(as `raise_for_status` checks, rather than every non-2xx status) or a parse
error each yield `none`; only the first GET outcome is ever consumed (no
retry); and any other outcome with a parseable body yields a result. -/
theorem elisa_c8_fetch_amended :
    (∀ (rest : List (Except Unit HttpResponse)) (parse : String → Except Unit ParsedPage)
        (url : String) (e : Unit),
      fetch_page (Except.error e :: rest) parse url = none) ∧
    (∀ (r : HttpResponse) (rest : List (Except Unit HttpResponse))
        (parse : String → Except Unit ParsedPage) (url : String),
      400 ≤ r.status → r.status < 600 →
      fetch_page (Except.ok r :: rest) parse url = none) ∧
    (∀ (r : HttpResponse) (rest : List (Except Unit HttpResponse))
        (parse : String → Except Unit ParsedPage) (url : String),
      parse r.body = Except.error () →
      fetch_page (Except.ok r :: rest) parse url = none) ∧
    (∀ (att : Except Unit HttpResponse) (rest : List (Except Unit HttpResponse))
        (parse : String → Except Unit ParsedPage) (url : String),
      fetch_page (att :: rest) parse url = fetch_page [att] parse url) ∧
    (∀ (r : HttpResponse) (rest : List (Except Unit HttpResponse))
        (parse : String → Except Unit ParsedPage) (url : String) (pg : ParsedPage),
      ¬(400 ≤ r.status ∧ r.status < 600) → parse r.body = Except.ok pg →
      (fetch_page (Except.ok r :: rest) parse url).isSome = true) := by
  refine ⟨?_, ?_, ?_, ?_, ?_⟩
  · intro rest parse url e
    rfl
  · intro r rest parse url h1 h2
    simp only [fetch_page, if_pos (And.intro h1 h2)]
  · intro r rest parse url hparse
    by_cases hs : 400 ≤ r.status ∧ r.status < 600
    · simp only [fetch_page, if_pos hs]
    · simp only [fetch_page, if_neg hs, hparse]
  · intro att rest parse url
    rfl
  · intro r rest parse url pg hs hparse
    simp only [fetch_page, if_neg hs, hparse]
    rfl

/-- Witness for C8: a 404 response is absorbed into `none`. -/
theorem elisa_c8_fetch_amended_witness :
    (400 ≤ 404) ∧ (404 < 600) ∧
    fetch_page [Except.ok ⟨404, "x", "u"⟩] (fun _ => Except.ok ⟨none, ""⟩) "u" = none :=
  ⟨by decide, by decide,
    elisa_c8_fetch_amended.2.1 ⟨404, "x", "u"⟩ [] (fun _ => Except.ok ⟨none, ""⟩) "u"
      (by decide) (by decide)⟩

/-! ### Lemmas: the domain filter -/

theorem contains_or_any_eq (dom : String) (ds : List String) :
    (ds.contains dom || ds.any (fun d => endsWithStr dom ("." ++ d))) =
      ds.any (fun d => dom == d || endsWithStr dom ("." ++ d)) := by
  rw [Bool.eq_iff_iff]
  constructor
  · intro h
    rcases Bool.or_eq_true_iff.mp h with h | h
    · have hmem : dom ∈ ds := by simpa using h
      rw [List.any_eq_true]
      exact ⟨dom, hmem, by simp⟩
    · obtain ⟨x, hx, hf⟩ := List.any_eq_true.mp h
      rw [List.any_eq_true]
      exact ⟨x, hx, by simp [hf]⟩
  · intro h
    obtain ⟨x, hx, hf⟩ := List.any_eq_true.mp h
    rw [Bool.or_eq_true_iff]
    rcases Bool.or_eq_true_iff.mp hf with h1 | h1
    · left
      have hdx : dom = x := by simpa using h1
      subst hdx
      simpa using hx
    · right
      rw [List.any_eq_true]
      exact ⟨x, hx, h1⟩

/-- C2 counterexample: an allow set that is present but empty is falsy in
Python, so the guard is skipped and the URL passes, although no entry `d` of
the empty set equals or suffixes its vendor — the claim requires rejection. -/
theorem elisa_c2_domain_filter_counterexample :
    to_urls [({ href := some "https://x.com/", url := none } : SearchResult)]
        (some []) = ["https://x.com/"] ∧
    c2ClaimPass "https://x.com/" (some []) = false :=
  ⟨by decide, by decide⟩

theorem toUrlOne_eq (allow_domains : Option (List String)) (r : SearchResult) :
    toUrlOne allow_domains r =
      if c2AmendedPass (pickUrl r) allow_domains = true then some (pickUrl r) else none := by
  unfold toUrlOne c2AmendedPass
  dsimp only
  cases hs : ("http://".data.isPrefixOf (pickUrl r).data ||
      "https://".data.isPrefixOf (pickUrl r).data) with
  | false => simp [hs]
  | true =>
    cases allow_domains with
    | none => simp [hs]
    | some ds =>
      cases hemp : ds.isEmpty with
      | true => simp [hs, hemp]
      | false =>
        cases hX : (ds.contains (vendor (pickUrl r)) ||
            ds.any (fun d => endsWithStr (vendor (pickUrl r)) ("." ++ d))) with
        | true =>
          have h2 : ds.any (fun d => vendor (pickUrl r) == d ||
              endsWithStr (vendor (pickUrl r)) ("." ++ d)) = true := by
            rw [← contains_or_any_eq, hX]
          simp only [hs, hemp, hX, h2]
          simp
        | false =>
          have h2 : ds.any (fun d => vendor (pickUrl r) == d ||
              endsWithStr (vendor (pickUrl r)) ("." ++ d)) = false := by
            rw [← contains_or_any_eq, hX]
          simp only [hs, hemp, hX, h2]
          simp

/-- C2 amended: `to_urls` keeps, in order, exactly the extracted URLs that
start with `http://` or `https://` and whose vendor, when the allow set is
present and non-empty, equals some entry `d` or ends with `"." ++ d`; an
absent or an empty allow set admits every such URL. -/
theorem elisa_c2_domain_filter_amended (results : List SearchResult)
    (allow_domains : Option (List String)) :
    to_urls results allow_domains =
      (results.map pickUrl).filter (fun u => c2AmendedPass u allow_domains) := by
  induction results with
  | nil => rfl
  | cons r rest ih =>
    simp only [to_urls, List.filterMap_cons, List.map_cons, List.filter_cons] at ih ⊢
    rw [toUrlOne_eq]
    by_cases hp : c2AmendedPass (pickUrl r) allow_domains = true
    · simp [hp, ih]
    · simp [hp, ih]

/-! ### Lemmas: the vendor host normalization -/

theorem isPrefixOf_append_self : ∀ (l1 l2 : List Char), l1.isPrefixOf (l1 ++ l2) = true := by
  intro l1 l2
  induction l1 with
  | nil => simp [List.isPrefixOf]
  | cons c l ih => simp [List.isPrefixOf, ih]

theorem takeWhile_all_append (p : Char → Bool) :
    ∀ (l1 l2 : List Char), (∀ c ∈ l1, p c = true) →
      (l1 ++ l2).takeWhile p = l1 ++ l2.takeWhile p := by
  intro l1
  induction l1 with
  | nil => intro l2 _; rfl
  | cons c l ih =>
    intro l2 h
    have hc : p c = true := h c (by simp)
    simp [List.takeWhile_cons, hc, ih l2 (fun x hx => h x (by simp [hx]))]

theorem removeOccGo_no_occur (pat : List Char) :
    ∀ (fuel : Nat) (l : List Char), containsSub pat l = false → removeOccGo pat fuel l = l := by
  intro fuel
  induction fuel with
  | zero => intro l _; rfl
  | succ fuel ih =>
    intro l h
    match l with
    | [] => rfl
    | c :: rest =>
      have hp : pat.isPrefixOf (c :: rest) = false := by
        cases hpp : pat.isPrefixOf (c :: rest) with
        | false => rfl
        | true =>
          simp only [containsSub, hpp, Bool.true_or] at h
          exact h
      have hr : containsSub pat rest = false := by
        simp only [containsSub, hp, Bool.false_or] at h
        exact h
      simp only [removeOccGo]
      rw [if_neg (by simp [hp])]
      rw [ih rest hr]

theorem removeOcc_no_occur (pat l : List Char) (h : containsSub pat l = false) :
    removeOcc pat l = l := removeOccGo_no_occur pat l.length l h

theorem removeOcc_cons_self (p : Char) (ps l : List Char)
    (hno : containsSub (p :: ps) l = false) :
    removeOcc (p :: ps) ((p :: ps) ++ l) = l := by
  unfold removeOcc
  rw [List.cons_append, List.length_cons]
  have hc : (!(p :: ps).isEmpty && (p :: ps).isPrefixOf (p :: (ps ++ l))) = true := by
    have hpre := isPrefixOf_append_self (p :: ps) l
    rw [List.cons_append] at hpre
    simp [hpre]
  simp only [removeOccGo]
  rw [if_pos hc]
  have hdrop : (ps ++ l).drop ((p :: ps).length - 1) = l := by
    simp only [List.length_cons, Nat.add_sub_cancel]
    exact List.drop_left ps l
  rw [hdrop]
  exact removeOccGo_no_occur (p :: ps) _ l hno

theorem netloc_data (url : String) (R : List Char) (h : url.data = "https://".data ++ R) :
    netlocOf url = String.mk (R.takeWhile (fun c => !stopChar c)) := by
  unfold netlocOf
  rw [h, if_pos (isPrefixOf_append_self _ _)]
  have h8 : ("https://".data).length = 8 := rfl
  rw [← h8, List.drop_left]

/-- C7 counterexample: `str.replace("www.", "")` removes every occurrence of
`"www."`, not only a leading prefix, so a host with an interior `"www."`
segment is mangled rather than left unchanged as the claim requires. -/
theorem elisa_c7_vendor_counterexample :
    vendor "https://app.www.example.com/" = "app.example.com" ∧
    vendorClaimed "https://app.www.example.com/" = "app.www.example.com" ∧
    vendor "https://app.www.example.com/" ≠ vendorClaimed "https://app.www.example.com/" :=
  ⟨by decide, by decide, by decide⟩

/-- C7 amended: `vendor` lower-cases the host and removes every occurrence of
the substring `"www."`, scanning left to right — on hosts whose lower-casing
contains no `"www."` occurrence at all (stated here for https URLs with a
stop-character-free host), this agrees with stripping a leading `"www."`. -/
theorem elisa_c7_vendor_amended (host path : String)
    (hclean : ∀ c ∈ host.data, stopChar c = false)
    (hno : containsSub "www.".data (host.data.map Char.toLower) = false) :
    vendor ("https://www." ++ host ++ "/" ++ path) = String.mk (host.data.map Char.toLower) ∧
    vendor ("https://" ++ host ++ "/" ++ path) = String.mk (host.data.map Char.toLower) := by
  have hwww : ∀ c ∈ "www.".data, (!stopChar c) = true := by decide
  have hhost : ∀ c ∈ host.data, (!stopChar c) = true := by
    intro c hc
    simp [hclean c hc]
  have hstop : ('/' :: path.data).takeWhile (fun c => !stopChar c) = [] := by
    simp [List.takeWhile_cons, stopChar]
  constructor
  · have hd : ("https://www." ++ host ++ "/" ++ path).data =
        "https://".data ++ ("www.".data ++ (host.data ++ ('/' :: path.data))) := by
      have hsplit : "https://www.".data = "https://".data ++ "www.".data := rfl
      simp [String.data_append, hsplit, List.append_assoc]
    rw [vendor, netloc_data _ _ hd]
    have htake : ("www.".data ++ (host.data ++ ('/' :: path.data))).takeWhile
        (fun c => !stopChar c) = "www.".data ++ host.data := by
      rw [takeWhile_all_append _ _ _ hwww, takeWhile_all_append _ _ _ hhost, hstop,
        List.append_nil]
    rw [htake]
    have hmap : ("www.".data ++ host.data).map Char.toLower =
        "www.".data ++ host.data.map Char.toLower := by
      have : "www.".data.map Char.toLower = "www.".data := rfl
      simp [List.map_append, this]
    show String.mk (removeOcc "www.".data (("www.".data ++ host.data).map Char.toLower)) = _
    rw [hmap]
    rw [removeOcc_cons_self 'w' ['w', 'w', '.'] (host.data.map Char.toLower) hno]
  · have hd : ("https://" ++ host ++ "/" ++ path).data =
        "https://".data ++ (host.data ++ ('/' :: path.data)) := by
      simp [String.data_append, List.append_assoc]
    rw [vendor, netloc_data _ _ hd]
    have htake : (host.data ++ ('/' :: path.data)).takeWhile (fun c => !stopChar c) =
        host.data := by
      rw [takeWhile_all_append _ _ _ hhost, hstop, List.append_nil]
    rw [htake]
    show String.mk (removeOcc "www.".data (host.data.map Char.toLower)) = _
    rw [removeOcc_no_occur _ _ hno]

/-- Witness for C7 amended: a clean host with and without the `"www."` prefix. -/
theorem elisa_c7_vendor_amended_witness :
    (∀ c ∈ "Shop.Abcam.com".data, stopChar c = false) ∧
    containsSub "www.".data ("Shop.Abcam.com".data.map Char.toLower) = false ∧
    vendor "https://www.Shop.Abcam.com/x" = "shop.abcam.com" ∧
    vendor "https://Shop.Abcam.com/x" = "shop.abcam.com" :=
  ⟨by decide, by decide,
    (elisa_c7_vendor_amended "Shop.Abcam.com" "x" (by decide) (by decide)).1,
    (elisa_c7_vendor_amended "Shop.Abcam.com" "x" (by decide) (by decide)).2⟩

/-! ### Lemmas: analyte detection order -/

theorem find?_append_of_all_false (p : String → Bool) :
    ∀ (pre : List String) (l : List String), (∀ b ∈ pre, p b = false) →
      List.find? p (pre ++ l) = List.find? p l := by
  intro pre
  induction pre with
  | nil => intro l _; rfl
  | cons b pre ih =>
    intro l h
    have hb : p b = false := h b (by simp)
    rw [List.cons_append, List.find?_cons_of_neg _ (by simp [hb])]
    exact ih l (fun x hx => h x (by simp [hx]))

theorem detectAlias_sound (up : List Char) (analytes : List String) :
    ∀ (aliases : List (String × List String)) (c : String),
      detectAlias up analytes aliases = some c →
      c ∈ analytes ∧ ∃ q ∈ aliases, q.1 = c ∧
        ∃ al ∈ q.2, searchWB (al.data.map Char.toUpper) up = true := by
  intro aliases
  induction aliases with
  | nil => intro c h; simp [detectAlias] at h
  | cons q rest ih =>
    intro c h
    match q with
    | (canon, alist) =>
      by_cases hc : (analytes.contains canon &&
          alist.any (fun al => searchWB (al.data.map Char.toUpper) up)) = true
      · rw [detectAlias, if_pos hc] at h
        have hcc : canon = c := Option.some.inj h
        subst hcc
        simp only [Bool.and_eq_true] at hc
        refine ⟨by simpa using hc.1, (canon, alist), by simp, rfl, ?_⟩
        obtain ⟨al, hal, hw⟩ := List.any_eq_true.mp hc.2
        exact ⟨al, hal, hw⟩
      · rw [detectAlias, if_neg hc] at h
        obtain ⟨hmem, q2, hq2, hfst, hal⟩ := ih c h
        exact ⟨hmem, q2, by simp [hq2], hfst, hal⟩

theorem detectAlias_eq_none (up : List Char) (analytes : List String) :
    ∀ (aliases : List (String × List String)),
      (∀ q ∈ aliases, q.1 ∈ analytes →
        ∀ al ∈ q.2, searchWB (al.data.map Char.toUpper) up = false) →
      detectAlias up analytes aliases = none := by
  intro aliases
  induction aliases with
  | nil => intro _; rfl
  | cons q rest ih =>
    intro h
    match q with
    | (canon, alist) =>
      have hcond : (analytes.contains canon &&
          alist.any (fun al => searchWB (al.data.map Char.toUpper) up)) = false := by
        by_cases hmem : canon ∈ analytes
        · have hall := h (canon, alist) (List.mem_cons_self _ _) hmem
          have hany : alist.any (fun al => searchWB (al.data.map Char.toUpper) up) = false := by
            rw [Bool.eq_false_iff]
            intro hany
            obtain ⟨al, hal, hw⟩ := List.any_eq_true.mp hany
            rw [hall al hal] at hw
            exact Bool.false_ne_true hw
          rw [hany, Bool.and_false]
        · have hcont : analytes.contains canon = false := by
            rw [Bool.eq_false_iff]
            intro hcontains
            exact hmem (by simpa using hcontains)
          rw [hcont, Bool.false_and]
      rw [detectAlias, if_neg (by rw [hcond]; exact Bool.false_ne_true)]
      exact ih (fun q2 hq2 => h q2 (List.mem_cons_of_mem _ hq2))

/-- C3: `detect_analyte` returns at most one analyte (its result is a single
optional value); when some requested analyte's exact name matches the blob as
a case-insensitive whole word, the result is the first such analyte in
declaration order; any result is a requested analyte obtained from an exact
whole-word match or from a whole-word alias match; a blob matching no
requested analyte and no alias of one yields no result; and a blob containing
`IP-10` with requested set `{CXCL10}` and the configured alias table yields
`CXCL10`. -/
theorem elisa_c3_detect_analyte :
    (∀ (blob : String) (aliases : List (String × List String)) (pre : List String)
        (a : String) (post : List String),
      (∀ b ∈ pre, wholeWord b blob = false) → wholeWord a blob = true →
      detect_analyte blob (pre ++ a :: post) aliases = some a) ∧
    (∀ (blob : String) (analytes : List String)
        (aliases : List (String × List String)) (c : String),
      detect_analyte blob analytes aliases = some c →
      c ∈ analytes ∧ (wholeWord c blob = true ∨
        ∃ q ∈ aliases, q.1 = c ∧ ∃ al ∈ q.2, wholeWord al blob = true)) ∧
    (∀ (blob : String) (analytes : List String)
        (aliases : List (String × List String)),
      (∀ a ∈ analytes, wholeWord a blob = false) →
      (∀ q ∈ aliases, q.1 ∈ analytes → ∀ al ∈ q.2, wholeWord al blob = false) →
      detect_analyte blob analytes aliases = none) ∧
    detect_analyte "Mouse IP-10 ELISA Kit" ["CXCL10"] aliases0 = some "CXCL10" := by
  refine ⟨?_, ?_, ?_, by decide⟩
  · intro blob aliases pre a post hpre ha
    simp only [detect_analyte]
    rw [find?_append_of_all_false
        (fun x => searchWB (x.data.map Char.toUpper) (blob.data.map Char.toUpper))
        pre _ hpre,
      @List.find?_cons_of_pos String
        (fun x => searchWB (x.data.map Char.toUpper) (blob.data.map Char.toUpper))
        a post ha]
  · intro blob analytes aliases c h
    simp only [detect_analyte] at h
    cases hf : analytes.find?
        (fun x => searchWB (x.data.map Char.toUpper) (blob.data.map Char.toUpper)) with
    | some b =>
      rw [hf] at h
      have hb := List.mem_of_find?_eq_some hf
      have hw := List.find?_some hf
      rw [← Option.some.inj h]
      exact ⟨hb, Or.inl hw⟩
    | none =>
      rw [hf] at h
      obtain ⟨hmem, q, hq, hfst, al, hal, hw⟩ := detectAlias_sound _ analytes aliases c h
      exact ⟨hmem, Or.inr ⟨q, hq, hfst, al, hal, hw⟩⟩
  · intro blob analytes aliases hex hal
    simp only [detect_analyte]
    rw [List.find?_eq_none.mpr (fun x hx => by
      have h2 : searchWB (x.data.map Char.toUpper) (blob.data.map Char.toUpper) = false :=
        hex x hx
      simp [h2])]
    exact detectAlias_eq_none _ analytes aliases hal

/-- Witness for C3: with requested analytes `["NOX4", "CXCL10"]` and a blob
mentioning only `CXCL10`, the first exact whole-word match wins. -/
theorem elisa_c3_detect_analyte_witness :
    (∀ b ∈ ["NOX4"], wholeWord b "Mouse CXCL10 kit" = false) ∧
    wholeWord "CXCL10" "Mouse CXCL10 kit" = true ∧
    detect_analyte "Mouse CXCL10 kit" (["NOX4"] ++ "CXCL10" :: []) aliases0 = some "CXCL10" :=
  ⟨by decide, by decide,
    elisa_c3_detect_analyte.1 "Mouse CXCL10 kit" aliases0 ["NOX4"] "CXCL10" []
      (by decide) (by decide)⟩
